import Mathlib

/-!
Verification of the AiDUC content-adaptation rule engine (src/main.py).

Text is modelled as `List Char`.  Python string primitives (`strip`,
`split`, `replace`, `lower`, `upper`, `in`, `endswith`, `join`) are
embedded as executable functions on `List Char`; case mapping uses the
ASCII maps `Char.toLower` / `Char.toUpper`, matching Python on the
ASCII range the engine's keywords live in.  Whitespace is the ASCII
whitespace set stripped by Python's `str.strip`.
-/

namespace AiDUC

/-- ASCII whitespace as recognised by Python's `str.strip`. -/
def isPySpace (c : Char) : Bool :=
  c == ' ' || c == '\t' || c == '\n' || c == '\r' || c == '\x0b' || c == '\x0c'

/-- Python `str.lstrip`. -/
def pyLStrip (l : List Char) : List Char := l.dropWhile isPySpace

/-- Python `str.rstrip`. -/
def pyRStrip (l : List Char) : List Char := (l.reverse.dropWhile isPySpace).reverse

/-- Python `str.strip` (both ends). -/
def pyStrip (l : List Char) : List Char := pyRStrip (pyLStrip l)

/-- Python `str.replace` for single-character patterns. -/
def pyReplace (a b : Char) (l : List Char) : List Char :=
  l.map fun x => if x = a then b else x

/-- Python `str.split(sep)` for a single-character separator:
keeps empty fragments, and the split of the empty string is `[[]]`. -/
def pySplit (c : Char) : List Char → List (List Char)
  | [] => [[]]
  | x :: xs =>
    if x = c then [] :: pySplit c xs
    else
      match pySplit c xs with
      | [] => [[x]]
      | h :: t => (x :: h) :: t

/-- Python `str.startswith`. -/
def startsWith : List Char → List Char → Bool
  | [], _ => true
  | _ :: _, [] => false
  | a :: n, b :: h => a == b && startsWith n h

/-- Python substring test `needle in hay`. -/
def strIn (n : List Char) : List Char → Bool
  | [] => n.isEmpty
  | c :: h => startsWith n (c :: h) || strIn n h

/-- Python `str.endswith`. -/
def endsWith (n h : List Char) : Bool := startsWith n.reverse h.reverse

/-- Python `sep.join(parts)`. -/
def pyJoin (sep : List Char) : List (List Char) → List Char
  | [] => []
  | [x] => x
  | x :: xs => x ++ sep ++ pyJoin sep xs

/-- Python `str.lower` (ASCII range). -/
def pyLower (l : List Char) : List Char := l.map Char.toLower

/-- Python `str.upper` (ASCII range). -/
def pyUpper (l : List Char) : List Char := l.map Char.toUpper

/-! Sentence segmentation and summarization, from `flexa_convert`
(src/main.py lines 155-158): replace `!` and `?` by `.`, split on `.`,
strip each fragment, drop empty fragments; join the first two sentences
with `". "` and append `"..."` when more than two sentences exist. -/

def segment (text : List Char) : List (List Char) :=
  ((pySplit '.' (pyReplace '?' '.' (pyReplace '!' '.' text))).map pyStrip).filter
    fun s => !s.isEmpty

def summarize (text : List Char) : List Char :=
  let sentences := segment text
  let summary := pyJoin ". ".toList (sentences.take 2)
  if 2 < sentences.length then summary ++ "...".toList else summary

/-- Keyword gloss extraction, from `flexa_convert` (src/main.py lines
160-161): replace newlines with spaces, split on single spaces, drop
empty tokens, take the first 8, upper-case each. -/
def extract_gloss (text : List Char) : List (List Char) :=
  let words := (pySplit ' ' (pyReplace '\n' ' ' text)).filter fun w => !w.isEmpty
  (words.take 8).map pyUpper

structure FlexaResponse where
  audio_url : Option (List Char)
  large_text : List Char
  summary : List Char
  sign_gloss : List (List Char)

/-- Endpoint `flexa_convert` (src/main.py lines 149-163). -/
def flexa_convert (text0 : List Char) : FlexaResponse :=
  let text := pyStrip text0
  { audio_url := none
    large_text := text
    summary := summarize text
    sign_gloss := extract_gloss text }

structure EyeReadResponse where
  text : List Char
  summary : List Char
  audio_url : Option (List Char)

/-- Endpoint `eyeread_scan` (src/main.py lines 175-182). -/
def eyeread_scan (text0 : List Char) : EyeReadResponse :=
  let text := pyStrip text0
  { text := text, summary := summarize text, audio_url := none }

/-! Tutoring rule engine, from `neotutor_ask` (src/main.py lines 105-136). -/

structure AskResponse where
  answer : List Char
  steps : List (List Char)
  tips : List (List Char)

def neotutorTips : List (List Char) :=
  [ "Baca soal perlahan dan tandai kata kunci.".toList
  , "Ubah pertanyaan menjadi kalimat pernyataan untuk membantu memahami.".toList
  , "Coba jelaskan kembali dengan bahasamu sendiri.".toList ]

def compSteps : List (List Char) :=
  [ "Identifikasi besaran yang diketahui".toList
  , "Tulis rumus yang sesuai".toList
  , "Substitusi nilai, hitung tahap demi tahap".toList
  , "Tulis jawaban dengan satuan yang benar".toList ]

def compAnswerText : List Char :=
  "Untuk soal berhitung, gunakan rumus yang tepat lalu hitung tahap demi tahap.".toList

def interSteps : List (List Char) :=
  [ "Pahami pertanyaan".toList, "Cari konsep utama".toList
  , "Berikan contoh sederhana".toList, "Simpulkan".toList ]

def interAnswerText : List Char :=
  "Berikut penjelasan singkat dengan bahasa sederhana sesuai pertanyaanmu.".toList

def defaultSteps : List (List Char) :=
  [ "Pecah persoalan".toList, "Cari definisi".toList
  , "Hubungkan dengan contoh".toList, "Simpulkan".toList ]

def defaultAnswerText : List Char :=
  "Ini adalah jawaban ringkas yang mudah diikuti.".toList

/-- The keyword test `any(k in q.lower() for k in ["rumus", "formula", "luas", "keliling"])`. -/
def kwHit (ql : List Char) : Bool :=
  strIn "rumus".toList ql || strIn "formula".toList ql ||
    strIn "luas".toList ql || strIn "keliling".toList ql

/-- The f-string rendering: `Menjawab: '` + first 80 chars of the trimmed
question + `'. ` + branch answer text.  `'\x27'` is the apostrophe. -/
def renderAnswer (q text : List Char) : List Char :=
  "Menjawab: ".toList ++ ['\x27'] ++ q.take 80 ++ ['\x27'] ++ ". ".toList ++ text

/-- Endpoint `neotutor_ask` (src/main.py lines 105-136).  The `level`
parameter is accepted and unused, as in the source. -/
def neotutor_ask (question level : List Char) : AskResponse :=
  let q := pyStrip question
  if kwHit (pyLower q) then
    { answer := renderAnswer q compAnswerText, steps := compSteps, tips := neotutorTips }
  else if endsWith "?".toList q then
    { answer := renderAnswer q interAnswerText, steps := interSteps, tips := neotutorTips }
  else
    { answer := renderAnswer q defaultAnswerText, steps := defaultSteps, tips := neotutorTips }

/-! Pathway planner, from `pathly_plan` (src/main.py lines 200-226). -/

structure PathItem where
  title : List Char
  objective : List Char
  activity : List Char

structure PathlyResponse where
  level : List Char
  plan : List PathItem
  recommended : List (List Char)

/-- Endpoint `pathly_plan` (src/main.py lines 200-226).  Proficiency is
modelled as an unconstrained integer; the HTTP layer's validation
(`ge=1, le=5`) is outside the engine. -/
def pathly_plan (topic0 : List Char) (p : Int) : PathlyResponse :=
  let topic := pyStrip topic0
  if p ≤ 2 then
    { level := "dasar".toList
      plan :=
        [ { title := "Pengenalan ".toList ++ topic
            objective := "Memahami konsep inti".toList
            activity := "Baca ringkasan + 3 contoh".toList }
        , { title := "Latihan ringan".toList
            objective := "Menguatkan pemahaman".toList
            activity := "Kerjakan 5 soal pilihan ganda".toList } ]
      recommended := ["Video pengantar 5 menit".toList, "Kartu ringkas istilah".toList] }
  else if p = 3 then
    { level := "menengah".toList
      plan :=
        [ { title := "Pendalaman ".toList ++ topic
            objective := "Menghubungkan konsep".toList
            activity := "Buat peta konsep sederhana".toList }
        , { title := "Latihan terarah".toList
            objective := "Terapan dasar".toList
            activity := "Kerjakan 5 soal cerita".toList } ]
      recommended := ["Artikel ringkas".toList, "Latihan interaktif".toList] }
  else
    { level := "lanjutan".toList
      plan :=
        [ { title := "Aplikasi ".toList ++ topic
            objective := "Pemecahan masalah".toList
            activity := "Proyek mini 1 halaman".toList }
        , { title := "Refleksi".toList
            objective := "Menjelaskan ke orang lain".toList
            activity := "Tulis ringkasan 150 kata".toList } ]
      recommended := ["Bank soal tingkat lanjut".toList, "Topik terkait untuk eksplorasi".toList] }

/-! Helper lemmas. -/

theorem char_toNat_ofNat {n : Nat} (h : n < 55296) : (Char.ofNat n).toNat = n := by
  have hv : n.isValidChar := Or.inl h
  rw [Char.ofNat, dif_pos hv]
  rfl

theorem startsWith_iff (n h : List Char) : startsWith n h = true ↔ ∃ t, h = n ++ t := by
  induction n generalizing h with
  | nil => simp [startsWith]
  | cons a n ih =>
    cases h with
    | nil => simp [startsWith]
    | cons b h' =>
      simp only [startsWith, Bool.and_eq_true, beq_iff_eq, ih, List.cons_append,
        List.cons.injEq]
      constructor
      · rintro ⟨rfl, t, rfl⟩
        exact ⟨t, rfl, rfl⟩
      · rintro ⟨t, rfl, rfl⟩
        exact ⟨rfl, t, rfl⟩

theorem strIn_iff (n h : List Char) : strIn n h = true ↔ ∃ s t, h = s ++ n ++ t := by
  induction h with
  | nil =>
    simp only [strIn, List.isEmpty_iff]
    constructor
    · intro hn
      exact ⟨[], [], by simp [hn]⟩
    · rintro ⟨s, t, he⟩
      rcases List.append_eq_nil.mp (List.append_eq_nil.mp he.symm).1 with ⟨-, h2⟩
      exact h2
  | cons c h' ih =>
    simp only [strIn, Bool.or_eq_true, startsWith_iff, ih]
    constructor
    · rintro (⟨t, he⟩ | ⟨s, t, rfl⟩)
      · exact ⟨[], t, by simpa using he⟩
      · exact ⟨c :: s, t, rfl⟩
    · rintro ⟨s, t, he⟩
      cases s with
      | nil =>
        left
        exact ⟨t, by simpa using he⟩
      | cons c' s' =>
        right
        injection he with h1 h2
        exact ⟨s', t, h2⟩

theorem strIn_reverse (n h : List Char) : strIn n.reverse h.reverse = strIn n h := by
  have fwd : ∀ n h : List Char, strIn n h = true → strIn n.reverse h.reverse = true := by
    intro n h hh
    rw [strIn_iff] at hh ⊢
    obtain ⟨s, t, rfl⟩ := hh
    exact ⟨t.reverse, s.reverse, by simp⟩
  cases hb : strIn n h with
  | true => rw [fwd n h hb]
  | false =>
    cases hb2 : strIn n.reverse h.reverse with
    | true =>
      have h2 := fwd _ _ hb2
      simp only [List.reverse_reverse] at h2
      rw [h2] at hb
      cases hb
    | false => rfl

theorem strIn_space_left {h0 : Char} {t0 : List Char} (hh : isPySpace h0 = false) :
    ∀ a w : List Char, (∀ x ∈ a, isPySpace x = true) →
      strIn (h0 :: t0) (a ++ w) = strIn (h0 :: t0) w := by
  intro a
  induction a with
  | nil => intro w _; rfl
  | cons c a' ih =>
    intro w ha
    have hc : isPySpace c = true := ha c (List.mem_cons_self ..)
    have hne : (h0 == c) = false := by
      refine beq_eq_false_iff_ne.mpr fun he => ?_
      rw [he, hc] at hh
      cases hh
    show strIn (h0 :: t0) (c :: (a' ++ w)) = _
    simp only [strIn, startsWith, hne, Bool.false_and, Bool.false_or]
    exact ih w fun x hx => ha x (List.mem_cons_of_mem _ hx)

theorem strIn_space_right {h0 : Char} {t0 : List Char} (n : List Char)
    (hn : n.reverse = h0 :: t0) (hh : isPySpace h0 = false) :
    ∀ w b : List Char, (∀ x ∈ b, isPySpace x = true) →
      strIn n (w ++ b) = strIn n w := by
  intro w b hb
  rw [← strIn_reverse n (w ++ b), ← strIn_reverse n w, hn, List.reverse_append]
  exact strIn_space_left hh b.reverse w.reverse fun x hx => hb x (List.mem_reverse.mp hx)

theorem toLower_space {c : Char} (h : isPySpace c = true) : Char.toLower c = c := by
  simp only [isPySpace, Bool.or_eq_true, beq_iff_eq] at h
  rcases h with ((((rfl | rfl) | rfl) | rfl) | rfl) | rfl <;> decide

theorem map_toLower_space {a : List Char} (h : ∀ x ∈ a, isPySpace x = true) :
    a.map Char.toLower = a := by
  induction a with
  | nil => rfl
  | cons c a' ih =>
    simp only [List.map_cons]
    rw [toLower_space (h c (List.mem_cons_self ..)),
      ih fun x hx => h x (List.mem_cons_of_mem _ hx)]

theorem pyRStrip_decomp (m : List Char) :
    m = pyRStrip m ++ (m.reverse.takeWhile isPySpace).reverse := by
  conv_lhs => rw [← List.reverse_reverse m,
    ← List.takeWhile_append_dropWhile (p := isPySpace) (l := m.reverse)]
  rw [List.reverse_append]
  rfl

theorem pyStrip_decomp (l : List Char) :
    ∃ a b, l = a ++ pyStrip l ++ b ∧
      (∀ x ∈ a, isPySpace x = true) ∧ (∀ x ∈ b, isPySpace x = true) := by
  have h1 : l = l.takeWhile isPySpace ++ pyLStrip l :=
    (List.takeWhile_append_dropWhile (p := isPySpace) (l := l)).symm
  have h2 : pyLStrip l = pyStrip l ++ ((pyLStrip l).reverse.takeWhile isPySpace).reverse :=
    pyRStrip_decomp (pyLStrip l)
  refine ⟨l.takeWhile isPySpace, ((pyLStrip l).reverse.takeWhile isPySpace).reverse, ?_, ?_, ?_⟩
  · rw [List.append_assoc, ← h2]
    exact h1
  · intro x hx
    exact List.mem_takeWhile_imp hx
  · intro x hx
    exact List.mem_takeWhile_imp (List.mem_reverse.mp hx)

theorem strIn_rumus_pyStrip (q : List Char) :
    strIn "rumus".toList (pyLower (pyStrip q)) = strIn "rumus".toList (pyLower q) := by
  obtain ⟨a, b, hq, ha, hb⟩ := pyStrip_decomp q
  have hru : "rumus".toList = 'r' :: "umus".toList := rfl
  have hrev : ('r' :: "umus".toList).reverse = 's' :: "umur".toList := by decide
  conv_rhs => rw [hq]
  have hmap : pyLower (a ++ pyStrip q ++ b) = a ++ (pyLower (pyStrip q) ++ b) := by
    simp only [pyLower, List.map_append, List.append_assoc]
    rw [map_toLower_space ha, map_toLower_space hb]
  rw [hmap, hru]
  rw [strIn_space_left (by decide) a _ ha]
  rw [strIn_space_right _ hrev (by decide) _ b hb]

theorem pySplit_ne_nil (c : Char) (l : List Char) : pySplit c l ≠ [] := by
  cases l with
  | nil => simp [pySplit]
  | cons x xs =>
    simp only [pySplit]
    split
    · simp
    · split <;> simp

theorem mem_pySplit_not_sep (c : Char) (l : List Char) :
    ∀ w ∈ pySplit c l, c ∉ w := by
  induction l with
  | nil =>
    intro w hw
    simp only [pySplit, List.mem_singleton] at hw
    subst hw
    simp
  | cons x xs ih =>
    intro w hw
    simp only [pySplit] at hw
    split at hw
    · rcases List.mem_cons.mp hw with rfl | hw'
      · simp
      · exact ih w hw'
    · rename_i hx
      split at hw
      · rename_i hm
        exact absurd hm (pySplit_ne_nil c xs)
      · rename_i h t hm
        have hh : h ∈ pySplit c xs := by
          rw [hm]
          exact List.mem_cons_self ..
        rcases List.mem_cons.mp hw with rfl | hw'
        · intro hc
          rcases List.mem_cons.mp hc with rfl | hc'
          · exact hx rfl
          · exact ih h hh hc'
        · refine ih w ?_
          rw [hm]
          exact List.mem_cons_of_mem _ hw'

theorem mem_pySplit_subset (c : Char) (l : List Char) :
    ∀ w ∈ pySplit c l, ∀ x ∈ w, x ∈ l := by
  induction l with
  | nil =>
    intro w hw
    simp only [pySplit, List.mem_singleton] at hw
    subst hw
    simp
  | cons y ys ih =>
    intro w hw x hx
    simp only [pySplit] at hw
    split at hw
    · rcases List.mem_cons.mp hw with rfl | hw'
      · cases hx
      · exact List.mem_cons_of_mem _ (ih w hw' x hx)
    · split at hw
      · rename_i hm
        exact absurd hm (pySplit_ne_nil c ys)
      · rename_i h t hm
        have hh : h ∈ pySplit c ys := by
          rw [hm]
          exact List.mem_cons_self ..
        rcases List.mem_cons.mp hw with rfl | hw'
        · rcases List.mem_cons.mp hx with rfl | hx'
          · exact List.mem_cons_self ..
          · exact List.mem_cons_of_mem _ (ih h hh x hx')
        · refine List.mem_cons_of_mem _ (ih w ?_ x hx)
          rw [hm]
          exact List.mem_cons_of_mem _ hw'

theorem mem_pyLStrip_subset {x : Char} {l : List Char} (h : x ∈ pyLStrip l) : x ∈ l := by
  induction l with
  | nil => exact h
  | cons c l' ih =>
    simp only [pyLStrip, List.dropWhile_cons] at h
    split at h
    · exact List.mem_cons_of_mem _ (ih h)
    · exact h

theorem mem_pyStrip_subset {x : Char} {l : List Char} (h : x ∈ pyStrip l) : x ∈ l := by
  simp only [pyStrip, pyRStrip] at h
  have h1 : x ∈ List.dropWhile isPySpace (pyLStrip l).reverse := List.mem_reverse.mp h
  have h2 : x ∈ (pyLStrip l).reverse := mem_pyLStrip_subset h1
  exact mem_pyLStrip_subset (List.mem_reverse.mp h2)

theorem mem_segment {w : List Char} {t : List Char} (h : w ∈ segment t) :
    w ≠ [] ∧ '.' ∉ w := by
  simp only [segment, List.mem_filter, List.mem_map] at h
  obtain ⟨⟨w0, hw0, rfl⟩, hne⟩ := h
  refine ⟨by simpa using hne, fun hc => ?_⟩
  exact mem_pySplit_not_sep _ _ w0 hw0 (mem_pyStrip_subset hc)

theorem reverse_cons_of_ne_nil {l : List Char} (h : l ≠ []) :
    ∃ c r, l.reverse = c :: r ∧ c ∈ l := by
  cases hr : l.reverse with
  | nil => exact absurd (by simpa using congrArg List.reverse hr) h
  | cons c r =>
    refine ⟨c, r, rfl, ?_⟩
    rw [← List.mem_reverse, hr]
    exact List.mem_cons_self ..

theorem endsWith_dots_false {s : List Char} (hne : s ≠ []) (hnd : '.' ∉ s)
    (x : List Char) : endsWith "...".toList (x ++ s) = false := by
  obtain ⟨c, r, hr, hc⟩ := reverse_cons_of_ne_nil hne
  have hcne : ('.' == c) = false :=
    beq_eq_false_iff_ne.mpr fun he => hnd (he ▸ hc)
  simp only [endsWith, List.reverse_append, hr]
  show startsWith ('.' :: '.' :: '.' :: []) (c :: (r ++ x.reverse)) = false
  simp [startsWith, hcne]

theorem toUpper_not_lowercase (x : Char) :
    ¬(97 ≤ (Char.toUpper x).toNat ∧ (Char.toUpper x).toNat ≤ 122) := by
  simp only [Char.toUpper]
  split
  · rename_i h
    rw [char_toNat_ofNat (by omega)]
    omega
  · rename_i h
    omega

theorem toUpper_eq_of_lt {x d : Char} (hd : d.toNat < 65) (he : Char.toUpper x = d) :
    x = d := by
  revert he
  simp only [Char.toUpper]
  split
  · rename_i h
    intro he
    have h2 := congrArg Char.toNat he
    rw [char_toNat_ofNat (by omega)] at h2
    exact absurd h2 (by omega)
  · exact fun he => he

theorem mem_pyReplace_ne {a b x : Char} {l : List Char} (hba : b ≠ a)
    (h : x ∈ pyReplace a b l) : x ≠ a := by
  simp only [pyReplace, List.mem_map] at h
  obtain ⟨y, hy, rfl⟩ := h
  show (if y = a then b else y) ≠ a
  split
  · exact hba
  · rename_i h2
    exact h2

/-! Claims C2 and C10: the pathway planner. -/

/-- C2: for proficiency p in 1..5, `pathly_plan` returns level "dasar" for
p in {1,2}, "menengah" for p = 3, "lanjutan" for p in {4,5}, and the plan
and recommended sequences always have exactly 2 entries. -/
theorem claim_c2 (topic : List Char) (p : Int) (h1 : 1 ≤ p) (h5 : p ≤ 5) :
    ((p = 1 ∨ p = 2) → (pathly_plan topic p).level = "dasar".toList) ∧
    (p = 3 → (pathly_plan topic p).level = "menengah".toList) ∧
    ((p = 4 ∨ p = 5) → (pathly_plan topic p).level = "lanjutan".toList) ∧
    (pathly_plan topic p).plan.length = 2 ∧
    (pathly_plan topic p).recommended.length = 2 := by
  refine ⟨fun h => ?_, fun h => ?_, fun h => ?_, ?_, ?_⟩
  · have hp : p ≤ 2 := by omega
    simp [pathly_plan, hp]
  · have hp2 : ¬p ≤ 2 := by omega
    simp [pathly_plan, hp2, h]
  · have hp2 : ¬p ≤ 2 := by omega
    have hp3 : ¬p = 3 := by rcases h with h | h <;> omega
    simp [pathly_plan, hp2, hp3]
  · by_cases h2 : p ≤ 2
    · simp [pathly_plan, h2]
    · by_cases h3 : p = 3 <;> simp [pathly_plan, h2, h3]
  · by_cases h2 : p ≤ 2
    · simp [pathly_plan, h2]
    · by_cases h3 : p = 3 <;> simp [pathly_plan, h2, h3]

/-- Witness for C2 at the spec scenario `plan("Pecahan", 5)`. -/
theorem claim_c2_witness :
    (1:Int) ≤ 5 ∧ (5:Int) ≤ 5 ∧
    (pathly_plan "Pecahan".toList 5).level = "lanjutan".toList ∧
    (pathly_plan "Pecahan".toList 5).plan.length = 2 ∧
    (pathly_plan "Pecahan".toList 5).recommended.length = 2 := by
  have h := claim_c2 "Pecahan".toList 5 (by decide) (by decide)
  exact ⟨by decide, by decide, h.2.2.1 (Or.inr rfl), h.2.2.2.1, h.2.2.2.2⟩

/-- C10: tier selection is total over all integers: p ≤ 2 gives "dasar",
p = 3 gives "menengah", p ≥ 4 gives "lanjutan", always with exactly 2 plan
items and 2 recommendations. -/
theorem claim_c10 (topic : List Char) (p : Int) :
    (p ≤ 2 → (pathly_plan topic p).level = "dasar".toList) ∧
    (p = 3 → (pathly_plan topic p).level = "menengah".toList) ∧
    (4 ≤ p → (pathly_plan topic p).level = "lanjutan".toList) ∧
    (pathly_plan topic p).plan.length = 2 ∧
    (pathly_plan topic p).recommended.length = 2 := by
  refine ⟨fun h => ?_, fun h => ?_, fun h => ?_, ?_, ?_⟩
  · simp [pathly_plan, h]
  · have hp2 : ¬p ≤ 2 := by omega
    simp [pathly_plan, hp2, h]
  · have hp2 : ¬p ≤ 2 := by omega
    have hp3 : ¬p = 3 := by omega
    simp [pathly_plan, hp2, hp3]
  · by_cases h2 : p ≤ 2
    · simp [pathly_plan, h2]
    · by_cases h3 : p = 3 <;> simp [pathly_plan, h2, h3]
  · by_cases h2 : p ≤ 2
    · simp [pathly_plan, h2]
    · by_cases h3 : p = 3 <;> simp [pathly_plan, h2, h3]

/-- Witness for C10 at the out-of-contract proficiencies 0 and 6. -/
theorem claim_c10_witness :
    (pathly_plan "Aljabar".toList 0).level = "dasar".toList ∧
    (pathly_plan "Aljabar".toList 6).level = "lanjutan".toList ∧
    (pathly_plan "Aljabar".toList 6).plan.length = 2 ∧
    (pathly_plan "Aljabar".toList 6).recommended.length = 2 := by
  have h0 := claim_c10 "Aljabar".toList 0
  have h6 := claim_c10 "Aljabar".toList 6
  exact ⟨h0.1 (by decide), h6.2.2.1 (by decide), h6.2.2.2.1, h6.2.2.2.2⟩

/-! Claims C6, C7, C8, C9: the facade and tutoring engine surface. -/

/-- C6 counterexample: `flexa_convert` does not return the original input
verbatim as `large_text` when the input has surrounding whitespace — the
input " hi " comes back as "hi". -/
theorem claim_c6_counterexample :
    (flexa_convert " hi ".toList).large_text ≠ " hi ".toList := by decide

/-- C6 amended: `flexa_convert` returns the stripped input text as
`large_text`; it is the original verbatim exactly when the input has no
leading or trailing whitespace. -/
theorem claim_c6_amended (t : List Char) : (flexa_convert t).large_text = pyStrip t := rfl

/-- C7: the rendered answer is always the literal "Menjawab: '" followed by
the first 80 characters of the trimmed question, "'. ", and the selected
branch's fixed answer text. -/
theorem claim_c7 (q level : List Char) :
    (neotutor_ask q level).answer =
      "Menjawab: ".toList ++ ['\x27'] ++ (pyStrip q).take 80 ++ ['\x27'] ++ ". ".toList ++
        (if kwHit (pyLower (pyStrip q)) then compAnswerText
         else if endsWith "?".toList (pyStrip q) then interAnswerText
         else defaultAnswerText) := by
  by_cases hc : kwHit (pyLower (pyStrip q)) = true
  · simp [neotutor_ask, renderAnswer, hc]
  · by_cases hq : endsWith ['?'] (pyStrip q) = true
    · simp [neotutor_ask, renderAnswer, hc, hq]
    · simp [neotutor_ask, renderAnswer, hc, hq]

/-- C1: whenever the question contains "rumus" in any letter case,
`neotutor_ask` takes the computational branch — the 4 fixed calculation
steps and the fixed formula-solving answer text — regardless of whether
the trimmed question ends with "?": the keyword check pre-empts the
interrogative check. -/
theorem claim_c1 (question level : List Char)
    (h : strIn "rumus".toList (pyLower question) = true) :
    neotutor_ask question level =
      { answer := renderAnswer (pyStrip question) compAnswerText
        steps := compSteps
        tips := neotutorTips } := by
  have h2 : strIn "rumus".toList (pyLower (pyStrip question)) = true := by
    rw [strIn_rumus_pyStrip]
    exact h
  have hk : kwHit (pyLower (pyStrip question)) = true := by
    simp only [kwHit, Bool.or_eq_true]
    exact Or.inl (Or.inl (Or.inl h2))
  simp [neotutor_ask, hk]

/-- Witness for C1: a mixed-case "RUMUS" question whose trimmed form ends
with "?" still takes the computational branch. -/
theorem claim_c1_witness :
    strIn "rumus".toList (pyLower "  Apa RUMUS keliling lingkaran?  ".toList) = true ∧
    neotutor_ask "  Apa RUMUS keliling lingkaran?  ".toList "sma".toList =
      { answer := renderAnswer (pyStrip "  Apa RUMUS keliling lingkaran?  ".toList) compAnswerText
        steps := compSteps
        tips := neotutorTips } :=
  ⟨by decide, claim_c1 _ _ (by decide)⟩

/-- C3: when segmentation yields more than two sentences, the summary is
exactly the first two sentences joined by ". ", followed immediately by
"..." with no separating space. -/
theorem claim_c3 (t s1 s2 : List Char) (r : List (List Char))
    (h : segment t = s1 :: s2 :: r) (hr : r ≠ []) :
    summarize t = s1 ++ ". ".toList ++ s2 ++ "...".toList := by
  have hlen : 2 < (s1 :: s2 :: r).length := by
    simp only [List.length_cons]
    have : r.length ≠ 0 := fun h0 => hr (List.length_eq_zero.mp h0)
    omega
  simp only [summarize, h]
  rw [if_pos hlen]
  have htake : List.take 2 (s1 :: s2 :: r) = [s1, s2] := rfl
  rw [htake]
  simp [pyJoin, List.append_assoc]

/-- Witness for C3 at the spec scenario sentence triple. -/
theorem claim_c3_witness :
    segment "Apa itu gravitasi? Gravitasi adalah gaya tarik. Ini penting untuk fisika.".toList =
      ["Apa itu gravitasi".toList, "Gravitasi adalah gaya tarik".toList,
        "Ini penting untuk fisika".toList] ∧
    summarize "Apa itu gravitasi? Gravitasi adalah gaya tarik. Ini penting untuk fisika.".toList =
      "Apa itu gravitasi. Gravitasi adalah gaya tarik...".toList := by
  refine ⟨by decide, ?_⟩
  have h := claim_c3
    "Apa itu gravitasi? Gravitasi adalah gaya tarik. Ini penting untuk fisika.".toList
    "Apa itu gravitasi".toList "Gravitasi adalah gaya tarik".toList
    ["Ini penting untuk fisika".toList] (by decide) (by decide)
  rw [h]
  decide

/-- C5: with at most two sentences the summary never ends in "...";
zero sentences give the empty string and one sentence is returned
unmodified. -/
theorem claim_c5 (t : List Char) (hle : (segment t).length ≤ 2) :
    (segment t = [] → summarize t = []) ∧
    (∀ s, segment t = [s] → summarize t = s) ∧
    endsWith "...".toList (summarize t) = false := by
  refine ⟨fun h => ?_, fun s h => ?_, ?_⟩
  · simp [summarize, h, pyJoin]
  · simp [summarize, h, pyJoin]
  · rcases hseg : segment t with _ | ⟨s1, _ | ⟨s2, rest⟩⟩
    · simp only [summarize, hseg]
      decide
    · have hs1 := mem_segment (t := t) (w := s1) (by rw [hseg]; exact List.mem_cons_self ..)
      have hsum : summarize t = s1 := by
        simp [summarize, hseg, pyJoin]
      rw [hsum]
      simpa using endsWith_dots_false hs1.1 hs1.2 []
    · have hrest : rest = [] := by
        rw [hseg] at hle
        simp only [List.length_cons] at hle
        exact List.length_eq_zero.mp (by omega)
      subst hrest
      have hs2 := mem_segment (t := t) (w := s2)
        (by rw [hseg]; exact List.mem_cons_of_mem _ (List.mem_cons_self ..))
      have hsum : summarize t = s1 ++ ". ".toList ++ s2 := by
        simp [summarize, hseg, pyJoin]
      rw [hsum]
      exact endsWith_dots_false hs2.1 hs2.2 (s1 ++ ". ".toList)

/-- Witness for C5 on a one-sentence input. -/
theorem claim_c5_witness :
    (segment "Halo dunia".toList).length ≤ 2 ∧
    summarize "Halo dunia".toList = "Halo dunia".toList ∧
    endsWith "...".toList (summarize "Halo dunia".toList) = false := by
  have h := claim_c5 "Halo dunia".toList (by decide)
  exact ⟨by decide, h.2.1 "Halo dunia".toList (by decide), h.2.2⟩

/-- C4 counterexample: a tab is a whitespace character, yet it survives
inside a gloss token — `extract_gloss "a\tb"` returns the single token
"A\tB" with an embedded tab, refuting "no embedded whitespace". -/
theorem claim_c4_counterexample :
    ['A', '\t', 'B'] ∈ extract_gloss "a\tb".toList ∧
    '\t' ∈ ['A', '\t', 'B'] ∧ isPySpace '\t' = true := by decide

/-- C4 amended: `extract_gloss` returns at most 8 tokens; every token is
upper-cased (contains no ASCII lowercase letter) and contains no embedded
space or newline character.  Other whitespace (tab, carriage return,
vertical tab, form feed) can remain embedded, since the algorithm only
replaces newlines and splits on single spaces. -/
theorem claim_c4_amended (t : List Char) :
    (extract_gloss t).length ≤ 8 ∧
    ∀ w ∈ extract_gloss t, ' ' ∉ w ∧ '\n' ∉ w ∧
      ∀ c ∈ w, ¬(97 ≤ c.toNat ∧ c.toNat ≤ 122) := by
  constructor
  · simp only [extract_gloss, List.length_map, List.length_take]
    exact min_le_left _ _
  · intro w hw
    simp only [extract_gloss, List.mem_map] at hw
    obtain ⟨w0, hw0, rfl⟩ := hw
    have hw0' := List.take_subset _ _ hw0
    have hw1 : w0 ∈ pySplit ' ' (pyReplace '\n' ' ' t) := (List.mem_filter.mp hw0').1
    refine ⟨?_, ?_, ?_⟩
    · intro hsp
      simp only [pyUpper, List.mem_map] at hsp
      obtain ⟨y, hy, hye⟩ := hsp
      have hy' : y = ' ' := toUpper_eq_of_lt (by decide) hye
      exact mem_pySplit_not_sep ' ' _ w0 hw1 (hy' ▸ hy)
    · intro hnl
      simp only [pyUpper, List.mem_map] at hnl
      obtain ⟨y, hy, hye⟩ := hnl
      have hy' : y = '\n' := toUpper_eq_of_lt (by decide) hye
      exact mem_pyReplace_ne (by decide) (mem_pySplit_subset _ _ w0 hw1 y hy) hy'
    · intro c hc
      simp only [pyUpper, List.mem_map] at hc
      obtain ⟨y, hy, rfl⟩ := hc
      exact toUpper_not_lowercase y

/-- Witness for C4 amended at the spec scenario gloss input. -/
theorem claim_c4_witness :
    (extract_gloss "Halo dunia\napa kabar".toList).length ≤ 8 ∧
    ' ' ∉ "HALO".toList ∧ '\n' ∉ "HALO".toList := by
  have h := claim_c4_amended "Halo dunia\napa kabar".toList
  have h2 := h.2 "HALO".toList (by decide)
  exact ⟨h.1, h2.1, h2.2.1⟩

/-- C8: the `level` parameter has no effect on any field of the answer. -/
theorem claim_c8 (q l1 l2 : List Char) : neotutor_ask q l1 = neotutor_ask q l2 := rfl

/-- C9: the summary computed by `flexa_convert` and by `eyeread_scan` on the
same text coincide: both are `summarize` of the stripped text. -/
theorem claim_c9 (t : List Char) : (flexa_convert t).summary = (eyeread_scan t).summary := rfl

end AiDUC
